import Mathlib

/-!
# Verification of the hybrid retrieval engine (second-brain-web)

Shallow embedding of the retrieval core of the repository:

* `chunkText`            — src/unnamed/part_000 (chunker)
* `rankByCosine`         — src/unnamed/part_002 (vector ranker)
* `buildContext`, `buildPrompt` — src/lib/rag.ts (context assembler)
* `queryPOSTCore`, `queryStreamPOSTCore` — the pure retrieval pipeline of
  src/app/api/query/route.ts and src/app/api/query-stream/route.ts

Modelling conventions:

* A JavaScript string is a `List Char` (one entry per UTF-16 code unit; all
  the texts handled here are ASCII, where code units and characters agree).
* JavaScript numbers used as array indices and sizes are `ℤ` (the source only
  ever holds integral values in them); vector components are `ℚ`.
  `Math.sqrt` is an external primitive and is passed in as a parameter
  `sqrtFn : ℚ → ℚ` of the ranking functions; the concrete instance `ratSqrt`
  below agrees with `Math.sqrt` on perfect squares, and every concrete input
  used in a theorem below only takes square roots of perfect squares.
* Fallible code returns `Option`/`Except`: `none` models a thrown TypeError
  (for `rankByCosine`), respectively loop fuel running out (for `chunkText`,
  whose `while` loop does not always terminate).
-/

/-! ## JavaScript string primitives -/

/-- The whitespace test of `String.prototype.trim` (on the ASCII texts used
here JS whitespace is space, tab, CR, LF — exactly `Char.isWhitespace`). -/
def jsIsWs (c : Char) : Bool := c.isWhitespace

/-- Model of `String.prototype.trim`: strip leading and trailing whitespace. -/
def jsTrim (l : List Char) : List Char :=
  ((l.dropWhile jsIsWs).reverse.dropWhile jsIsWs).reverse

/-- Model of `String.prototype.substring(s, e)`: clamp both indices into
`[0, length]`, swap them when out of order, and return the slice. -/
def jsSubstring (l : List Char) (s e : ℤ) : List Char :=
  let len : ℤ := l.length
  let cs : ℤ := max 0 (min s len)
  let ce : ℤ := max 0 (min e len)
  (l.take (max cs ce).toNat).drop (min cs ce).toNat

/-! ## Chunker (`chunkText`, src/unnamed/part_000 lines 204-255)

The source is a `while (startIndex < text.length)` loop over the mutable
state `(startIndex, chunks, chunkIndex)`.  `chunkStep` is one loop
iteration; `chunkLoop` iterates it with an explicit fuel bound, `none`
meaning the loop has not finished within `fuel` iterations (so
`∀ fuel, … = none` means the loop runs forever). -/

/-- The `TextChunk` record of src/unnamed/part_000: `{ index, text, tokenCount }`. -/
structure TextChunk where
  index : ℕ
  text : List Char
  tokenCount : ℕ
deriving DecidableEq

/-- The mutable state of the `while` loop in `chunkText`. -/
structure ChunkState where
  startIndex : ℤ
  chunks : List TextChunk
  chunkIndex : ℕ
deriving DecidableEq

/-- Result of one `while` iteration: the loop either finished (guard false,
or `break` after reaching the end of the text) or continues in a new state. -/
inductive ChunkOut where
  | done (chunks : List TextChunk)
  | next (s : ChunkState)
deriving DecidableEq

/-- One iteration of the loop in `chunkText`.  Mirrors the source line by
line: take the window `[startIndex, min(startIndex+chunkSize, length))`,
trim it, push it (with the next dense index) when non-empty, `break` when
the window reached the end of the text, otherwise set
`startIndex = endIndex - overlap` and, when that is `<=` the *sequence
index* of the last emitted chunk (`chunks[chunks.length-1]?.index`,
`undefined` — which compares false — when no chunk exists) or `< 0`,
force `startIndex = endIndex`. -/
def chunkStep (text : List Char) (chunkSize overlap : ℤ) (s : ChunkState) : ChunkOut :=
  if s.startIndex < (text.length : ℤ) then
    let endIndex : ℤ := min (s.startIndex + chunkSize) (text.length : ℤ)
    let ct : List Char := jsTrim (jsSubstring text s.startIndex endIndex)
    let chunks' : List TextChunk :=
      if ct = [] then s.chunks else s.chunks ++ [⟨s.chunkIndex, ct, ct.length⟩]
    let chunkIndex' : ℕ := if ct = [] then s.chunkIndex else s.chunkIndex + 1
    if endIndex = (text.length : ℤ) then ChunkOut.done chunks'
    else
      let cand : ℤ := endIndex - overlap
      let forced : Bool :=
        (match chunks'.getLast? with
          | some last => decide (cand ≤ (last.index : ℤ))
          | none => false) || decide (cand < 0)
      ChunkOut.next ⟨if forced then endIndex else cand, chunks', chunkIndex'⟩
  else ChunkOut.done s.chunks

/-- The `while` loop of `chunkText`, with an explicit fuel bound. -/
def chunkLoop (text : List Char) (chunkSize overlap : ℤ) :
    ℕ → ChunkState → Option (List TextChunk)
  | 0, s =>
    match chunkStep text chunkSize overlap s with
    | ChunkOut.done cs => some cs
    | ChunkOut.next _ => none
  | fuel + 1, s =>
    match chunkStep text chunkSize overlap s with
    | ChunkOut.done cs => some cs
    | ChunkOut.next s' => chunkLoop text chunkSize overlap fuel s'

/-- Embedding of `chunkText` of src/unnamed/part_000 (defaults `chunkSize = 1500`,
`overlap = 200`): trim the input, return `[]` when empty, otherwise run the
chunking loop from `(startIndex, chunks, chunkIndex) = (0, [], 0)`. -/
def chunkText (fuel : ℕ) (input : List Char) (chunkSize overlap : ℤ) :
    Option (List TextChunk) :=
  let text := jsTrim input
  if text = [] then some [] else chunkLoop text chunkSize overlap fuel ⟨0, [], 0⟩

/-! ## Vector ranker (`rankByCosine`, src/unnamed/part_002)

`Math.sqrt` is an external primitive; the ranking functions take it as a
parameter `sqrtFn : ℚ → ℚ`, so every general theorem below holds for *any*
behaviour of the square root.  `ratSqrt` is the concrete instance used for
concrete inputs: it agrees with `Math.sqrt` on perfect squares (the only
values concrete theorems below take square roots of) and returns 0
elsewhere. -/

/-- Exact integer square root by bounded search (kernel-reducible). -/
def natSqrtA (n : ℕ) : ℕ :=
  (((List.range (n + 1)).filter fun k => k * k ≤ n).getLast?).getD 0

/-- Concrete model of `Math.sqrt`, exact on rationals whose numerator and
denominator are perfect squares; 0 elsewhere (a value no theorem below
depends on). -/
def ratSqrt (q : ℚ) : ℚ :=
  let sn := natSqrtA q.num.toNat
  let sd := natSqrtA q.den
  if 0 ≤ q.num ∧ sn * sn = q.num.toNat ∧ sd * sd = q.den then (sn : ℚ) / (sd : ℚ) else 0

/-- A candidate row handed to `rankByCosine` (the element type of its
`vectors` argument in src/unnamed/part_002). -/
structure VecItem where
  id : ℕ
  vector : List ℚ
  docId : ℕ
  chunkIndex : ℕ
  filename : List Char
  text : List Char
deriving DecidableEq

/-- A candidate together with its computed similarity (`{ ...item,
similarity }` in the source). -/
structure RankedItem extends VecItem where
  similarity : ℚ
deriving DecidableEq

/-- Sum of squares `Σ v[i]²` — the norm accumulation loops of the source
(`queryNorm += query[i] * query[i]`, and likewise per item). -/
def sumSquares (v : List ℚ) : ℚ := (v.map fun x => x * x).sum

/-- The per-item similarity computation inside `rankByCosine`'s loop.  The
inner `for` loop runs `j` over `query.length`; when `item.vector` is
shorter than `query`, the JS code reads `undefined` out of bounds, the
accumulators become NaN, the guard `itemNorm > 0` is false (every NaN
comparison is false) and the similarity is 0 — modelled by the length
test.  When `item.vector` is at least as long, only its first
`query.length` components enter the dot product and the item norm. -/
def rankSimilarity (sqrtFn : ℚ → ℚ) (queryNorm : ℚ) (query vec : List ℚ) : ℚ :=
  if vec.length < query.length then 0
  else
    let dotProduct : ℚ :=
      ((List.range query.length).map fun j => query.getD j 0 * vec.getD j 0).sum
    let itemNorm : ℚ :=
      sqrtFn (((List.range query.length).map fun j => vec.getD j 0 * vec.getD j 0).sum)
    if 0 < itemNorm ∧ 0 < queryNorm then dotProduct / (queryNorm * itemNorm) else 0

/-- Stable insertion used to model `Array.prototype.sort` with comparator
`(a, b) => b.similarity - a.similarity`: the element is placed before the
first entry whose similarity is `≤` its own, i.e. after every
strictly-greater entry and before every equal one that was supplied
later. -/
def insertBySim (x : RankedItem) : List RankedItem → List RankedItem
  | [] => [x]
  | y :: ys => if y.similarity ≤ x.similarity then x :: y :: ys else y :: insertBySim x ys

/-- Model of `topKHeap.sort((a, b) => b.similarity - a.similarity)`: JS `sort` is
specified stable, and a stable sort's output is uniquely determined, so any
stable descending sort is a faithful model; this is the insertion-sort
formulation. -/
def sortBySimDesc (l : List RankedItem) : List RankedItem := l.foldr insertBySim []

/-- The heap-maintenance step of `rankByCosine`'s loop: push while below
capacity (sorting once the heap reaches exactly `topK`), otherwise compare
with `topKHeap[topKHeap.length - 1]` — reading `.similarity` of `undefined`
(a thrown TypeError, modelled as `none`) when the heap is empty, which
happens exactly when `topK ≤ 0` — and replace the last (worst) element on
strict improvement, re-sorting. -/
def pushOrReplace (topK : ℤ) (h : List RankedItem) (x : RankedItem) :
    Option (List RankedItem) :=
  if (h.length : ℤ) < topK then
    let h' := h ++ [x]
    some (if (h'.length : ℤ) = topK then sortBySimDesc h' else h')
  else
    match h.getLast? with
    | none => none
    | some worst =>
      if worst.similarity < x.similarity then some (sortBySimDesc (h.dropLast ++ [x]))
      else some h

/-- The candidate loop of `rankByCosine`.  The source iterates the
candidates in batches of 100, which visits exactly the same items in
exactly the same order as this single left-to-right loop. -/
def rankLoop (sqrtFn : ℚ → ℚ) (queryNorm : ℚ) (query : List ℚ) (topK : ℤ) :
    List RankedItem → List VecItem → Option (List RankedItem)
  | h, [] => some h
  | h, item :: rest =>
    match pushOrReplace topK h ⟨item, rankSimilarity sqrtFn queryNorm query item.vector⟩ with
    | none => none
    | some h' => rankLoop sqrtFn queryNorm query topK h' rest

/-- Embedding of `rankByCosine` of src/unnamed/part_002: early `[]` on an empty
candidate list, otherwise precompute the query norm once, run the
heap-maintenance loop over all candidates, and return the heap sorted
descending by similarity.  `none` models the TypeError thrown when the
empty heap's last element is dereferenced (`topK ≤ 0` with a non-empty
candidate list). -/
def rankByCosine (sqrtFn : ℚ → ℚ) (query : List ℚ) (vectors : List VecItem)
    (topK : ℤ) : Option (List RankedItem) :=
  if vectors = [] then some []
  else
    let queryNorm := sqrtFn (sumSquares query)
    match rankLoop sqrtFn queryNorm query topK [] vectors with
    | none => none
    | some h => some (sortBySimDesc h)

/-- The ranked record `rankByCosine` builds for one candidate. -/
def rankedOf (sqrtFn : ℚ → ℚ) (query : List ℚ) (item : VecItem) : RankedItem :=
  ⟨item, rankSimilarity sqrtFn (sqrtFn (sumSquares query)) query item.vector⟩

/-- Sorted descending by similarity. -/
def SortedBySim (l : List RankedItem) : Prop :=
  l.Pairwise fun a b => b.similarity ≤ a.similarity

/-- Stable insertion *from the right*: where `sortBySimDesc` places an
element that was supplied after every element of the list — after every
entry whose similarity is `≥` its own. -/
def insLastBySim (x : RankedItem) : List RankedItem → List RankedItem
  | [] => [x]
  | y :: ys => if x.similarity ≤ y.similarity then y :: insLastBySim x ys else x :: y :: ys

/-- Invariant of `rankByCosine`'s candidate loop, relating the heap `h` to
the list `P` of candidates processed so far: while fewer than `topK`
candidates have been seen the heap is exactly the processed list in supply
order; from then on it is the sorted-descending stable top `topK` of the
processed list. -/
def RankInv (topK : ℤ) (P h : List RankedItem) : Prop :=
  ((P.length : ℤ) < topK ∧ h = P) ∨
  (topK ≤ (P.length : ℤ) ∧ SortedBySim h ∧ h = (sortBySimDesc P).take topK.toNat)

/-! ## Context assembler (`buildContext` / `buildPrompt`, src/lib/rag.ts) -/

/-- Decimal digits of a natural number (the text a JS template literal
`${n}` produces for the chunk indices, which are non-negative integers).
Structural recursion over an inner fuel argument (`fuel = n` suffices) so
that the kernel can evaluate it. -/
def natDigitsAux : ℕ → ℕ → List Char
  | 0, n => [Nat.digitChar (n % 10)]
  | fuel + 1, n =>
    if n < 10 then [Nat.digitChar n]
    else natDigitsAux fuel (n / 10) ++ [Nat.digitChar (n % 10)]

/-- Decimal representation of a natural number, as a char list. -/
def natDigits (n : ℕ) : List Char := natDigitsAux n n

/-- A `ChunkSource` record of src/lib/rag.ts: `{ filename, chunkIndex,
text }`. -/
structure ChunkSource where
  filename : List Char
  chunkIndex : ℕ
  text : List Char
deriving DecidableEq

/-- The dedup key `` `${chunk.filename}#${chunk.chunkIndex}` `` of
src/lib/rag.ts. -/
def sourceKey (filename : List Char) (chunkIndex : ℕ) : List Char :=
  filename ++ '#' :: natDigits chunkIndex

/-- One rendered fragment:
`` `Source: ${chunk.filename}#${chunk.chunkIndex}\n${chunk.text}\n---\n` ``. -/
def renderChunk (c : ChunkSource) : List Char :=
  "Source: ".data ++ c.filename ++ '#' :: natDigits c.chunkIndex ++
    '\n' :: c.text ++ "\n---\n".data

/-- The source-tracking step of `buildContext`'s loop: push the
`(filename, chunkIndex)` pair unless some already-recorded source has the
same string key. -/
def dedupInsert (sources : List (List Char × ℕ)) (c : ChunkSource) :
    List (List Char × ℕ) :=
  if sources.any fun s => decide (sourceKey s.1 s.2 = sourceKey c.filename c.chunkIndex)
  then sources
  else sources ++ [(c.filename, c.chunkIndex)]

/-- The `for (const chunk of chosen)` loop of `buildContext`, over the
mutable state `(contextParts, sources, currentLength)`: `break` (returning
the accumulators) at the first fragment that would push the total length
beyond `maxChars` once something has been accumulated; otherwise append
the rendered fragment, record its source (deduplicated), and continue. -/
def buildLoop (maxChars : ℤ) :
    List ChunkSource → List (List Char) → List (List Char × ℕ) → ℕ →
      List (List Char) × List (List Char × ℕ)
  | [], parts, sources, _ => (parts, sources)
  | c :: rest, parts, sources, currentLength =>
    let ct := renderChunk c
    if (currentLength : ℤ) + ct.length > maxChars ∧ 0 < currentLength then (parts, sources)
    else
      buildLoop maxChars rest (parts ++ [ct]) (dedupInsert sources c)
        (currentLength + ct.length)

/-- Embedding of `buildContext` of src/lib/rag.ts: empty input short-circuits to an
empty context and source list; otherwise run the greedy loop and join the
accumulated parts (`contextParts.join('')`). -/
def buildContext (chosen : List ChunkSource) (maxChars : ℤ) :
    List Char × List (List Char × ℕ) :=
  if chosen = [] then ([], [])
  else
    let r := buildLoop maxChars chosen [] [] 0
    (r.1.flatten, r.2)

/-- Embedding of `buildPrompt` of src/lib/rag.ts: the fixed instruction template with
the retrieved context in the CONTEXT slot and the user's question in the
QUESTION slot.  (The first parameter is the question, the second the
context, exactly as in the source's signature.) -/
def buildPrompt (question context : List Char) : List Char :=
  ("You are a helpful assistant. Use ONLY the context below to answer.\nIf the context does not contain the answer, say \"I can\x27t find that in the notes.\"\nCite sources as (filename#chunkIndex).\n\nCONTEXT:\n").data ++
    context ++ ("\n\nQUESTION:\n").data ++ question ++ ("\n\nANSWER:\n").data

/-- Total rendered length of a list of fragments. -/
def sumRenderLen (l : List ChunkSource) : ℕ :=
  (l.map fun c => (renderChunk c).length).sum

/-! ## Retrieval orchestrator
(`POST` of src/app/api/query/route.ts and src/app/api/query-stream/route.ts)

The two handlers share their retrieval pipeline verbatim up to context
assembly and differ afterwards.  The embedding below is the pure part of
each handler, from the point where the query embedding and the FTS5
prefilter outcome are known (both are external calls) to the prompt handed
to the generator, together with the cited sources.  Generation, message
persistence and the docId enrichment of the source list happen after this
pure part and involve only external collaborators. -/

/-- One row of the `prisma.embedding.findMany` result: the stored vector
(`none` models a JSON value that is not an array, failing `Array.isArray`)
plus the joined chunk/document metadata. -/
structure EmbRow where
  chunkId : ℕ
  vector : Option (List ℚ)
  docId : ℕ
  chunkIndex : ℕ
  filename : List Char
  text : List Char
deriving DecidableEq

/-- The candidate id list after the FTS5 `try`/`catch`: the ids on success,
`[]` when the prefilter threw (`catch` leaves the initial `[]` in place). -/
def ftsIds (fts : Except Unit (List ℕ)) : List ℕ :=
  match fts with
  | Except.ok ids => ids
  | Except.error _ => []

/-- The FetchVectors `findMany`: `scope` is the conversation's embedding
rows (the `document.conversationId` filter); a non-empty candidate id list
restricts to those chunk ids (`candidateChunkIds.length > 0 ? { id: { in:
… } } : {}`); `take` bounds the result to `MAX_EMBEDDINGS_SEARCH` rows. -/
def fetchEmbeddings (scope : List EmbRow) (candidateChunkIds : List ℕ)
    (maxEmbeddingsSearch : ℕ) : List EmbRow :=
  (if 0 < candidateChunkIds.length
    then scope.filter fun r => candidateChunkIds.contains r.chunkId
    else scope).take maxEmbeddingsSearch

/-- The `vectorRows` computation of both routes: keep only rows whose stored vector is an
array (`Array.isArray`) of positive length, and repackage them for
ranking. -/
def vectorRows (embeddings : List EmbRow) : List VecItem :=
  (embeddings.filter fun r =>
      match r.vector with
      | some v => !v.isEmpty
      | none => false).map fun r =>
    ⟨r.chunkId, r.vector.getD [], r.docId, r.chunkIndex, r.filename, r.text⟩

/-- The error responses the pure pipeline can produce:
`noEmbeddedContent` is the 422 "No embedded content in this conversation
yet…", `noContext` the 422 "No context could be built from retrieved
chunks" (single-completion route only), and `rankFailure` the TypeError
thrown inside `rankByCosine`, surfaced as a 500 by the outer handler. -/
inductive QueryError where
  | noEmbeddedContent
  | noContext
  | rankFailure
deriving DecidableEq

deriving instance DecidableEq for Except

/-- The pure retrieval pipeline of `POST /api/query`
(src/app/api/query/route.ts lines 96-170): fetch candidate vectors (full
scope when the prefilter errored or returned nothing), fail when none were
fetched, filter malformed vectors, rank, assemble the context, fail when it
is empty, and build the prompt `buildPrompt(question, context)`. -/
def queryPOSTCore (sqrtFn : ℚ → ℚ) (topK maxContextChars : ℤ)
    (maxEmbeddingsSearch : ℕ) (queryVector : List ℚ) (scope : List EmbRow)
    (fts : Except Unit (List ℕ)) (question : List Char) :
    Except QueryError (List Char × List (List Char × ℕ)) :=
  let embeddings := fetchEmbeddings scope (ftsIds fts) maxEmbeddingsSearch
  if embeddings = [] then Except.error QueryError.noEmbeddedContent
  else
    match rankByCosine sqrtFn queryVector (vectorRows embeddings) topK with
    | none => Except.error QueryError.rankFailure
    | some chosen =>
      let bc := buildContext
        (chosen.map fun c => ⟨c.filename, c.chunkIndex, c.text⟩) maxContextChars
      if bc.1.length = 0 then Except.error QueryError.noContext
      else Except.ok (buildPrompt question bc.1, bc.2)

/-- The pure retrieval pipeline of `POST /api/query-stream`
(src/app/api/query-stream/route.ts lines 97-176): identical to
`queryPOSTCore` except that there is *no* empty-context check and the
prompt is built as `buildPrompt(context, question)` — the arguments in the
source call are in that order. -/
def queryStreamPOSTCore (sqrtFn : ℚ → ℚ) (topK maxContextChars : ℤ)
    (maxEmbeddingsSearch : ℕ) (queryVector : List ℚ) (scope : List EmbRow)
    (fts : Except Unit (List ℕ)) (question : List Char) :
    Except QueryError (List Char × List (List Char × ℕ)) :=
  let embeddings := fetchEmbeddings scope (ftsIds fts) maxEmbeddingsSearch
  if embeddings = [] then Except.error QueryError.noEmbeddedContent
  else
    match rankByCosine sqrtFn queryVector (vectorRows embeddings) topK with
    | none => Except.error QueryError.rankFailure
    | some chosen =>
      let bc := buildContext
        (chosen.map fun c => ⟨c.filename, c.chunkIndex, c.text⟩) maxContextChars
      Except.ok (buildPrompt bc.1 question, bc.2)

/-! ## Sanity evaluations of the chunker -/

example : chunkText 10 ("  ab".data) 2 0 = some [⟨0, "ab".data, 2⟩] := by decide

example : chunkText 10 ("abcd".data) 2 0 =
    some [⟨0, "ab".data, 2⟩, ⟨1, "cd".data, 2⟩] := by decide

/-! ## Divergence of `chunkText` (claims C1 and C9) -/

/-- With a non-positive `chunkSize` and a non-empty text, one loop iteration
of `chunkText` always continues, from a non-positive `startIndex` to another
non-positive `startIndex`: the window `[startIndex, startIndex + chunkSize)`
sits at or before position 0, so the substring is empty, no chunk is pushed,
and the next start (forced or not) stays `≤ 0`. -/
theorem chunkStep_nonpos_size (text : List Char) (chunkSize overlap : ℤ)
    (s : ChunkState) (htext : text ≠ []) (hsz : chunkSize ≤ 0) (hov : 0 ≤ overlap)
    (hs : s.startIndex ≤ 0) :
    ∃ s', chunkStep text chunkSize overlap s = ChunkOut.next s' ∧ s'.startIndex ≤ 0 := by
  have hlen : (1 : ℤ) ≤ (text.length : ℤ) := by
    have := List.length_pos.mpr htext
    exact_mod_cast this
  have hmin : min (s.startIndex + chunkSize) (text.length : ℤ) = s.startIndex + chunkSize :=
    min_eq_left (by omega)
  have hsub : jsSubstring text s.startIndex (s.startIndex + chunkSize) = [] := by
    unfold jsSubstring
    have h1 : max 0 (min s.startIndex (text.length : ℤ)) = 0 := by
      rw [min_eq_left (by omega)]
      exact max_eq_left (by omega)
    have h2 : max 0 (min (s.startIndex + chunkSize) (text.length : ℤ)) = 0 := by
      rw [min_eq_left (by omega)]
      exact max_eq_left (by omega)
    simp only [h1, h2]
    simp
  unfold chunkStep
  rw [if_pos (by omega : s.startIndex < (text.length : ℤ))]
  simp only [hmin, hsub]
  have htrim : jsTrim ([] : List Char) = [] := rfl
  simp only [htrim, if_pos rfl]
  rw [if_neg (by omega : ¬ s.startIndex + chunkSize = (text.length : ℤ))]
  refine ⟨_, rfl, ?_⟩
  dsimp only
  split <;> omega

/-- With a non-positive `chunkSize` and a non-empty text, the `while` loop
of `chunkText` never terminates (no fuel bound suffices), starting from any
non-positive `startIndex`. -/
theorem chunkLoop_nonpos_size (text : List Char) (chunkSize overlap : ℤ)
    (htext : text ≠ []) (hsz : chunkSize ≤ 0) (hov : 0 ≤ overlap) :
    ∀ (fuel : ℕ) (s : ChunkState), s.startIndex ≤ 0 →
      chunkLoop text chunkSize overlap fuel s = none := by
  intro fuel
  induction fuel with
  | zero =>
    intro s hs
    obtain ⟨s', hstep, _⟩ := chunkStep_nonpos_size text chunkSize overlap s htext hsz hov hs
    simp [chunkLoop, hstep]
  | succ n ih =>
    intro s hs
    obtain ⟨s', hstep, hs'⟩ := chunkStep_nonpos_size text chunkSize overlap s htext hsz hov hs
    simp only [chunkLoop, hstep]
    exact ih s' hs'

/-- C9 (amended): `chunkText` performs no input validation whatsoever.  For
every `chunkSize ≤ 0` and `overlap ≥ 0`: when the trimmed input is empty it
returns `[]` normally, and when the trimmed input is non-empty it neither
raises an error nor returns — its `while` loop runs forever (the window
never advances past position 0), so no fuel bound makes it finish. -/
theorem chunkText_no_size_validation (input : List Char) (chunkSize overlap : ℤ)
    (hsz : chunkSize ≤ 0) (hov : 0 ≤ overlap) :
    (jsTrim input = [] → ∀ fuel, chunkText fuel input chunkSize overlap = some []) ∧
    (jsTrim input ≠ [] → ∀ fuel, chunkText fuel input chunkSize overlap = none) := by
  constructor
  · intro h fuel
    simp [chunkText, h]
  · intro h fuel
    simp only [chunkText, if_neg h]
    exact chunkLoop_nonpos_size (jsTrim input) chunkSize overlap h hsz hov fuel
      ⟨0, [], 0⟩ (by norm_num)

/-- Witness for `chunkText_no_size_validation` at the concrete input
`"ab"`, `chunkSize = 0`, `overlap = 0`, fuel 7. -/
theorem chunkText_no_size_validation_witness :
    chunkText 7 ("ab".data) 0 0 = none :=
  (chunkText_no_size_validation ("ab".data) 0 0 (by decide) (by decide)).2 (by decide) 7

/-- C9 counterexample: `chunkText` does *not* reject a non-positive `size`
with a validation error.  At `input = "ab"`, `chunkSize = 0`, `overlap = 0`
the loop's very first iteration reproduces its initial state unchanged (so
the loop spins forever), and no error value of any kind is produced — 100
iterations of fuel are exhausted without terminating. -/
theorem chunkText_nonpos_size_no_validation_error :
    chunkStep ("ab".data) 0 0 ⟨0, [], 0⟩ = ChunkOut.next ⟨0, [], 0⟩ ∧
      chunkText 100 ("ab".data) 0 0 = none := by decide

/-- C1: the claim is right and the code has a slip.  The progress guard of
`chunkText` compares the candidate next start against the *sequence index*
of the last emitted chunk (`chunks[chunks.length - 1]?.index`) instead of
against the previous start position.  On `"ab    cd"` with `chunkSize = 2`
and `overlap = 2` the loop reaches the state `startIndex = 2` with one
emitted chunk of index 0; the window `[2, 4)` is pure whitespace, so no
chunk is emitted and the candidate next start `4 - 2 = 2` is neither `≤ 0`
(the last index) nor `< 0`, so the guard — whose comment says it ensures
progress for large overlaps — never fires again and the state repeats
forever.  `chunkText` therefore does not terminate on this input, for any
fuel bound. -/
theorem chunkText_diverges_on_degenerate_overlap :
    ∀ fuel : ℕ, chunkText fuel ("ab    cd".data) 2 2 = none := by
  have hstep : chunkStep ("ab    cd".data) 2 2 ⟨2, [⟨0, "ab".data, 2⟩], 1⟩ =
      ChunkOut.next ⟨2, [⟨0, "ab".data, 2⟩], 1⟩ := by decide
  have hstuck : ∀ fuel : ℕ,
      chunkLoop ("ab    cd".data) 2 2 fuel ⟨2, [⟨0, "ab".data, 2⟩], 1⟩ = none := by
    intro fuel
    induction fuel with
    | zero => simp [chunkLoop, hstep]
    | succ n ih =>
      simp only [chunkLoop, hstep]
      exact ih
  intro fuel
  cases fuel with
  | zero => decide
  | succ n =>
    have hstep0 : chunkStep ("ab    cd".data) 2 2 ⟨0, [], 0⟩ =
        ChunkOut.next ⟨2, [⟨0, "ab".data, 2⟩], 1⟩ := by decide
    have htrim : jsTrim ("ab    cd".data) = "ab    cd".data := by decide
    have hne : jsTrim ("ab    cd".data) ≠ [] := by decide
    simp only [chunkText, if_neg hne, htrim, chunkLoop, hstep0]
    exact hstuck n

/-! ## Order and stability theory of `sortBySimDesc` -/

theorem insertBySim_perm (x : RankedItem) (l : List RankedItem) :
    List.Perm (insertBySim x l) (x :: l) := by
  induction l with
  | nil => rfl
  | cons y ys ih =>
    rw [insertBySim]
    split
    · rfl
    · exact (ih.cons y).trans (List.Perm.swap x y ys)

theorem sortBySimDesc_perm (l : List RankedItem) : List.Perm (sortBySimDesc l) l := by
  induction l with
  | nil => rfl
  | cons y ys ih => exact (insertBySim_perm y (sortBySimDesc ys)).trans (ih.cons y)

theorem sortedBySim_insertBySim (x : RankedItem) (l : List RankedItem)
    (h : SortedBySim l) : SortedBySim (insertBySim x l) := by
  unfold SortedBySim at h ⊢
  induction l with
  | nil => exact List.pairwise_singleton _ x
  | cons y ys ih =>
    rw [List.pairwise_cons] at h
    rw [insertBySim]
    split
    · rename_i hyx
      rw [List.pairwise_cons]
      refine ⟨?_, List.pairwise_cons.mpr h⟩
      intro z hz
      rcases List.mem_cons.mp hz with rfl | hz
      · exact hyx
      · exact (h.1 z hz).trans hyx
    · rename_i hyx
      push_neg at hyx
      rw [List.pairwise_cons]
      refine ⟨?_, ih h.2⟩
      intro z hz
      rcases List.mem_cons.mp ((insertBySim_perm x ys).mem_iff.mp hz) with rfl | hz
      · exact le_of_lt hyx
      · exact h.1 z hz

theorem sortedBySim_sortBySimDesc (l : List RankedItem) :
    SortedBySim (sortBySimDesc l) := by
  induction l with
  | nil => exact List.Pairwise.nil
  | cons y ys ih => exact sortedBySim_insertBySim y (sortBySimDesc ys) ih

theorem insertBySim_eq_cons (x : RankedItem) (l : List RankedItem)
    (h : ∀ z ∈ l, z.similarity ≤ x.similarity) : insertBySim x l = x :: l := by
  cases l with
  | nil => rfl
  | cons y ys => exact if_pos (h y (List.mem_cons_self y ys))

theorem sortBySimDesc_eq_self (l : List RankedItem) (h : SortedBySim l) :
    sortBySimDesc l = l := by
  unfold SortedBySim at h
  induction l with
  | nil => rfl
  | cons y ys ih =>
    rw [List.pairwise_cons] at h
    rw [sortBySimDesc] at ih ⊢
    rw [List.foldr_cons, ih h.2, insertBySim_eq_cons y ys h.1]

/-- Stability of the model sort: the subsequence at any fixed similarity
value is left unchanged. -/
theorem filter_insertBySim (s : ℚ) (x : RankedItem) (l : List RankedItem) :
    (insertBySim x l).filter (fun r => decide (r.similarity = s)) =
      if x.similarity = s then x :: l.filter (fun r => decide (r.similarity = s))
      else l.filter (fun r => decide (r.similarity = s)) := by
  induction l with
  | nil =>
    rw [insertBySim]
    split <;> simp_all [List.filter]
  | cons y ys ih =>
    rw [insertBySim]
    split
    · rename_i hyx
      simp only [List.filter]
      split <;> simp_all [List.filter_cons]
    · rename_i hyx
      push_neg at hyx
      simp only [List.filter_cons, ih]
      by_cases hy : y.similarity = s
      · have hx : ¬ x.similarity = s := by
          intro hx
          rw [hx, ← hy] at hyx
          exact lt_irrefl _ hyx
        simp [hy, hx]
      · by_cases hx : x.similarity = s <;> simp [hy, hx]

theorem filter_sortBySimDesc (s : ℚ) (l : List RankedItem) :
    (sortBySimDesc l).filter (fun r => decide (r.similarity = s)) =
      l.filter (fun r => decide (r.similarity = s)) := by
  induction l with
  | nil => rfl
  | cons y ys ih =>
    rw [sortBySimDesc, List.foldr_cons, filter_insertBySim]
    rw [sortBySimDesc] at ih
    by_cases hy : y.similarity = s <;> simp [hy, ih, List.filter_cons]

theorem insLastBySim_eq_append (x : RankedItem) (l : List RankedItem) :
    insLastBySim x l =
      l.takeWhile (fun y => decide (x.similarity ≤ y.similarity)) ++
        x :: l.dropWhile (fun y => decide (x.similarity ≤ y.similarity)) := by
  induction l with
  | nil => rfl
  | cons y ys ih =>
    rw [insLastBySim, List.takeWhile, List.dropWhile]
    by_cases h : x.similarity ≤ y.similarity <;> simp [h, ih]

theorem insertBySim_insLastBySim_comm (p x : RankedItem) (l : List RankedItem) :
    insertBySim p (insLastBySim x l) = insLastBySim x (insertBySim p l) := by
  induction l with
  | nil =>
    by_cases h : x.similarity ≤ p.similarity <;>
      simp [insertBySim, insLastBySim, h]
  | cons y ys ih =>
    by_cases hyp : y.similarity ≤ p.similarity
    · rw [insertBySim, if_pos hyp]
      by_cases hxy : x.similarity ≤ y.similarity
      · have hxp : x.similarity ≤ p.similarity := hxy.trans hyp
        rw [insLastBySim, if_pos hxy, insertBySim, if_pos hyp, insLastBySim, if_pos hxp,
          insLastBySim, if_pos hxy]
      · have hyx : y.similarity < x.similarity := lt_of_not_le hxy
        rw [insLastBySim, if_neg hxy, insertBySim]
        by_cases hxp : x.similarity ≤ p.similarity
        · rw [if_pos hxp, insLastBySim, if_pos hxp, insLastBySim, if_neg hxy]
        · rw [if_neg hxp, insertBySim, if_pos hyp, insLastBySim, if_neg hxp]
    · have hpy : p.similarity < y.similarity := lt_of_not_le hyp
      rw [insertBySim, if_neg hyp]
      by_cases hxy : x.similarity ≤ y.similarity
      · rw [insLastBySim, if_pos hxy, insertBySim, if_neg hyp, insLastBySim, if_pos hxy, ih]
      · have hyx : y.similarity < x.similarity := lt_of_not_le hxy
        have hxp : ¬ x.similarity ≤ p.similarity := not_le.mpr ((hpy.trans hyx))
        rw [insLastBySim, if_neg hxy, insertBySim, if_neg hxp, insertBySim, if_neg hyp,
          insLastBySim, if_neg hxy]

/-- Sorting a list with one element appended on the right places that
element after every entry of the sorted list whose similarity is `≥` its
own (the stable-sort characterisation used for the heap invariant). -/
theorem sortBySimDesc_append_singleton (x : RankedItem) (l : List RankedItem) :
    sortBySimDesc (l ++ [x]) = insLastBySim x (sortBySimDesc l) := by
  induction l with
  | nil => rfl
  | cons y ys ih =>
    rw [List.cons_append, sortBySimDesc, List.foldr_cons]
    rw [sortBySimDesc] at ih
    rw [ih, insertBySim_insLastBySim_comm]
    rfl

theorem insLastBySim_perm (x : RankedItem) (l : List RankedItem) :
    List.Perm (insLastBySim x l) (x :: l) := by
  induction l with
  | nil => rfl
  | cons y ys ih =>
    rw [insLastBySim]
    split
    · exact (ih.cons y).trans (List.Perm.swap x y ys)
    · rfl

/-- In a descending-sorted list the last element is minimal. -/
theorem sortedBySim_getLast_min (l : List RankedItem) (h : SortedBySim l)
    (hne : l ≠ []) : ∀ y ∈ l, (l.getLast hne).similarity ≤ y.similarity := by
  unfold SortedBySim at h
  induction l with
  | nil => exact absurd rfl hne
  | cons a t ih =>
    rw [List.pairwise_cons] at h
    intro y hy
    cases t with
    | nil =>
      rcases List.mem_singleton.mp hy with rfl
      exact le_refl _
    | cons b u =>
      rw [List.getLast_cons (by simp : (b :: u : List RankedItem) ≠ [])]
      rcases List.mem_cons.mp hy with rfl | hy
      · exact h.1 _ (List.getLast_mem _)
      · exact ih h.2 (by simp) y hy

/-! ## Prefix bookkeeping for the top-K window -/

theorem takeWhile_length_ge {α : Type} (p : α → Bool) (l : List α) (n : ℕ)
    (hn : n ≤ l.length) (hp : ∀ y ∈ l.take n, p y = true) :
    n ≤ (l.takeWhile p).length := by
  induction l generalizing n with
  | nil => simpa using hn
  | cons y ys ih =>
    cases n with
    | zero => exact Nat.zero_le _
    | succ m =>
      have hy : p y = true := hp y (by simp)
      rw [List.takeWhile_cons_of_pos hy]
      have := ih m (by simpa using hn) (fun z hz => hp z (by simp [hz]))
      simpa using this

theorem takeWhile_take_eq_take {α : Type} (p : α → Bool) (l : List α) (n : ℕ)
    (hn : n ≤ (l.takeWhile p).length) : (l.takeWhile p).take n = l.take n := by
  induction l generalizing n with
  | nil => simp
  | cons y ys ih =>
    by_cases hy : p y = true
    · rw [List.takeWhile_cons_of_pos hy] at hn ⊢
      cases n with
      | zero => simp
      | succ m => simp only [List.take_succ_cons]; rw [ih m (by simpa using hn)]
    · rw [List.takeWhile_cons_of_neg (by simpa using hy)] at hn
      have hn0 : n = 0 := Nat.le_zero.mp (by simpa using hn)
      subst hn0
      simp

theorem takeWhile_of_take {α : Type} (p : α → Bool) (l : List α) (n : ℕ)
    (hn : (l.takeWhile p).length ≤ n) : (l.take n).takeWhile p = l.takeWhile p := by
  induction l generalizing n with
  | nil => simp
  | cons y ys ih =>
    by_cases hy : p y = true
    · rw [List.takeWhile_cons_of_pos hy] at hn ⊢
      cases n with
      | zero => simp at hn
      | succ m =>
        rw [List.take_succ_cons, List.takeWhile_cons_of_pos hy,
          ih m (by simpa using hn)]
    · rw [List.takeWhile_cons_of_neg (by simpa using hy)]
      cases n with
      | zero => simp
      | succ m => rw [List.take_succ_cons, List.takeWhile_cons_of_neg (by simpa using hy)]

theorem dropWhile_of_take {α : Type} (p : α → Bool) (l : List α) (n : ℕ)
    (hn : (l.takeWhile p).length ≤ n) :
    (l.take n).dropWhile p = (l.dropWhile p).take (n - (l.takeWhile p).length) := by
  induction l generalizing n with
  | nil => simp
  | cons y ys ih =>
    by_cases hy : p y = true
    · rw [List.takeWhile_cons_of_pos hy] at hn ⊢
      cases n with
      | zero => simp at hn
      | succ m =>
        rw [List.take_succ_cons, List.dropWhile_cons_of_pos hy,
          List.dropWhile_cons_of_pos hy, ih m (by simpa using hn)]
        congr 1
        simp
    · rw [List.takeWhile_cons_of_neg (by simpa using hy),
        List.dropWhile_cons_of_neg (by simpa using hy)]
      cases n with
      | zero => simp
      | succ m =>
        rw [List.take_succ_cons, List.dropWhile_cons_of_neg (by simpa using hy)]
        simp

/-! ## The heap invariant of `rankByCosine` and its consequences -/

theorem rankInv_nil (topK : ℤ) : RankInv topK [] [] := by
  rcases lt_or_le 0 topK with h | h
  · exact Or.inl ⟨by simpa using h, rfl⟩
  · refine Or.inr ⟨by simpa using h, List.Pairwise.nil, ?_⟩
    rw [Int.toNat_of_nonpos h]
    rfl

theorem pushOrReplace_inv (topK : ℤ) (P h : List RankedItem) (x : RankedItem)
    (hinv : RankInv topK P h) (h' : List RankedItem)
    (hpush : pushOrReplace topK h x = some h') :
    RankInv topK (P ++ [x]) h' := by
  rcases hinv with ⟨hlt, rfl⟩ | ⟨hge, hsorted, hh⟩
  · -- phase 1: heap = processed list, below capacity
    rw [pushOrReplace, if_pos hlt] at hpush
    injection hpush with hh'
    by_cases heq : ((h ++ [x]).length : ℤ) = topK
    · rw [if_pos heq] at hh'
      refine Or.inr ⟨?_, hh' ▸ sortedBySim_sortBySimDesc _, ?_⟩
      · simp only [List.length_append, List.length_singleton] at heq ⊢
        omega
      rw [← hh']
      refine (List.take_of_length_le ?_).symm
      have hlen : (sortBySimDesc (h ++ [x])).length = h.length + 1 := by
        rw [(sortBySimDesc_perm (h ++ [x])).length_eq]
        simp
      simp only [List.length_append, List.length_singleton] at heq
      omega
    · rw [if_neg heq] at hh'
      refine Or.inl ⟨?_, hh'.symm⟩
      simp only [List.length_append, List.length_singleton] at heq ⊢
      omega
  · -- phase 2: heap = stable top-K of the processed list
    have hS_sorted : SortedBySim (sortBySimDesc P) := sortedBySim_sortBySimDesc P
    have hSlen : (sortBySimDesc P).length = P.length := (sortBySimDesc_perm P).length_eq
    rcases le_or_lt topK 0 with htop | htop
    · -- topK ≤ 0: the heap is empty and the source crashes; `some` is impossible
      have hk0 : topK.toNat = 0 := Int.toNat_of_nonpos htop
      have hempty : h = [] := by rw [hh, hk0, List.take_zero]
      rw [pushOrReplace, hempty] at hpush
      rw [if_neg (by simpa using htop)] at hpush
      simp at hpush
    · have hkP : topK.toNat ≤ P.length := by omega
      have hhlen : h.length = topK.toNat := by
        rw [hh, List.length_take, hSlen, min_eq_left hkP]
      have hne : h ≠ [] := by
        intro e
        rw [e] at hhlen
        simp at hhlen
        omega
      obtain ⟨w, hwlast⟩ : ∃ w, h.getLast? = some w :=
        ⟨h.getLast hne, List.getLast?_eq_getLast h hne⟩
      have hweq : h.getLast hne = w := by
        rw [List.getLast?_eq_getLast h hne] at hwlast
        exact Option.some.inj hwlast
      rw [pushOrReplace, if_neg (by rw [hhlen]; omega), hwlast] at hpush
      dsimp only at hpush
      have hwmem : w ∈ h := hweq ▸ List.getLast_mem hne
      have hmin : ∀ y ∈ h, w.similarity ≤ y.similarity :=
        hweq ▸ sortedBySim_getLast_min h hsorted hne
      by_cases hcmp : w.similarity < x.similarity
      · -- strict improvement: evict the worst, re-sort
        rw [if_pos hcmp] at hpush
        injection hpush with hh'
        have hd_sorted : SortedBySim h.dropLast :=
          List.Pairwise.sublist (List.dropLast_sublist h) hsorted
        have hdrop : h.dropLast = (sortBySimDesc P).take (topK.toNat - 1) := by
          rw [List.dropLast_eq_take, hhlen, hh, List.take_take,
            min_eq_left (by omega)]
        have hw : ((sortBySimDesc P).takeWhile
            (fun y => decide (x.similarity ≤ y.similarity))).length ≤ topK.toNat - 1 := by
          by_contra hcon
          push_neg at hcon
          have hkw : topK.toNat ≤ ((sortBySimDesc P).takeWhile
              (fun y => decide (x.similarity ≤ y.similarity))).length := by omega
          have : w ∈ (sortBySimDesc P).takeWhile
              (fun y => decide (x.similarity ≤ y.similarity)) := by
            have hmem := hwmem
            rw [hh, ← takeWhile_take_eq_take _ _ _ hkw] at hmem
            exact List.mem_of_mem_take hmem
          have := List.mem_takeWhile_imp this
          simp at this
          exact absurd hcmp (not_lt.mpr this)
        refine Or.inr ⟨by simp; omega, hh' ▸ sortedBySim_sortBySimDesc _, ?_⟩
        rw [sortBySimDesc_append_singleton, insLastBySim_eq_append]
        rw [← hh', sortBySimDesc_append_singleton, sortBySimDesc_eq_self _ hd_sorted,
          hdrop, insLastBySim_eq_append]
        rw [takeWhile_of_take _ _ _ hw, dropWhile_of_take _ _ _ hw]
        rw [List.take_append_eq_append_take,
          List.take_of_length_le (by omega :
            ((sortBySimDesc P).takeWhile
              (fun y => decide (x.similarity ≤ y.similarity))).length ≤ topK.toNat)]
        have hsplit : topK.toNat - ((sortBySimDesc P).takeWhile
            (fun y => decide (x.similarity ≤ y.similarity))).length =
            (topK.toNat - 1 - ((sortBySimDesc P).takeWhile
              (fun y => decide (x.similarity ≤ y.similarity))).length) + 1 := by omega
        rw [hsplit, List.take_succ_cons]
      · -- no improvement: heap unchanged
        rw [if_neg hcmp] at hpush
        injection hpush with hh'
        have hq : ∀ y ∈ (sortBySimDesc P).take topK.toNat,
            (fun y => decide (x.similarity ≤ y.similarity)) y = true := by
          intro y hy
          simp only [decide_eq_true_eq]
          have hxw : x.similarity ≤ w.similarity := not_lt.mp hcmp
          exact hxw.trans (hmin y (hh ▸ hy))
        have hw : topK.toNat ≤ ((sortBySimDesc P).takeWhile
            (fun y => decide (x.similarity ≤ y.similarity))).length :=
          takeWhile_length_ge _ _ _ (by omega) hq
        refine Or.inr ⟨by simp; omega, hh' ▸ hsorted, ?_⟩
        rw [← hh', sortBySimDesc_append_singleton, insLastBySim_eq_append,
          List.take_append_eq_append_take, Nat.sub_eq_zero_of_le hw, List.take_zero,
          List.append_nil, takeWhile_take_eq_take _ _ _ hw, hh]

theorem rankLoop_inv (sqrtFn : ℚ → ℚ) (queryNorm : ℚ) (query : List ℚ) (topK : ℤ) :
    ∀ (xs : List VecItem) (P h : List RankedItem), RankInv topK P h →
      ∀ res, rankLoop sqrtFn queryNorm query topK h xs = some res →
        RankInv topK
          (P ++ xs.map fun it =>
            (⟨it, rankSimilarity sqrtFn queryNorm query it.vector⟩ : RankedItem)) res := by
  intro xs
  induction xs with
  | nil =>
    intro P h hinv res hres
    rw [rankLoop] at hres
    injection hres with hres
    simpa using hres ▸ hinv
  | cons x rest ih =>
    intro P h hinv res hres
    rw [rankLoop] at hres
    cases hpush : pushOrReplace topK h ⟨x, rankSimilarity sqrtFn queryNorm query x.vector⟩ with
    | none => rw [hpush] at hres; exact absurd hres (by simp)
    | some h' =>
      rw [hpush] at hres
      dsimp only at hres
      have hinv' := pushOrReplace_inv topK P h _ hinv h' hpush
      have hmain := ih (P ++ [⟨x, rankSimilarity sqrtFn queryNorm query x.vector⟩]) h' hinv' res hres
      simpa [List.append_assoc] using hmain

/-- The central characterisation of `rankByCosine`: whenever it returns (no
TypeError), the result is exactly the first `topK` entries of the stable
descending sort of all candidates (each paired with its similarity). -/
theorem rankByCosine_eq_take_sort (sqrtFn : ℚ → ℚ) (query : List ℚ)
    (vectors : List VecItem) (topK : ℤ) (res : List RankedItem)
    (h : rankByCosine sqrtFn query vectors topK = some res) :
    res = (sortBySimDesc (vectors.map (rankedOf sqrtFn query))).take topK.toNat := by
  by_cases hv : vectors = []
  · subst hv
    rw [rankByCosine, if_pos rfl] at h
    injection h with h
    simp [← h, sortBySimDesc]
  · rw [rankByCosine, if_neg hv] at h
    dsimp only at h
    cases hloop : rankLoop sqrtFn (sqrtFn (sumSquares query)) query topK [] vectors with
    | none => rw [hloop] at h; exact absurd h (by simp)
    | some hp =>
      rw [hloop] at h
      dsimp only at h
      injection h with h
      have hinv := rankLoop_inv sqrtFn (sqrtFn (sumSquares query)) query topK vectors
        [] [] (rankInv_nil topK) hp hloop
      rw [List.nil_append] at hinv
      have hmapeq : (vectors.map fun it =>
          (⟨it, rankSimilarity sqrtFn (sqrtFn (sumSquares query)) query it.vector⟩ :
            RankedItem)) = vectors.map (rankedOf sqrtFn query) := by
        simp [rankedOf]
      rw [hmapeq] at hinv
      rcases hinv with ⟨hlt, hpe⟩ | ⟨hge, hsorted, hh⟩
      · rw [← h, hpe]
        refine (List.take_of_length_le ?_).symm
        rw [(sortBySimDesc_perm _).length_eq]
        omega
      · rw [← h, sortBySimDesc_eq_self hp hsorted, hh]

theorem pushOrReplace_isSome (topK : ℤ) (htop : 1 ≤ topK) (h : List RankedItem)
    (x : RankedItem) : (pushOrReplace topK h x).isSome = true := by
  rw [pushOrReplace]
  split
  · simp
  · rename_i hge
    push_neg at hge
    have hne : h ≠ [] := by
      intro e
      rw [e] at hge
      simp at hge
      omega
    rw [List.getLast?_eq_getLast h hne]
    dsimp only
    split <;> simp

theorem rankLoop_isSome (sqrtFn : ℚ → ℚ) (queryNorm : ℚ) (query : List ℚ)
    (topK : ℤ) (htop : 1 ≤ topK) :
    ∀ (xs : List VecItem) (h : List RankedItem),
      (rankLoop sqrtFn queryNorm query topK h xs).isSome = true := by
  intro xs
  induction xs with
  | nil => intro h; rw [rankLoop]; rfl
  | cons x rest ih =>
    intro h
    rw [rankLoop]
    cases hpush : pushOrReplace topK h ⟨x, rankSimilarity sqrtFn queryNorm query x.vector⟩ with
    | none =>
      have := pushOrReplace_isSome topK htop h ⟨x, rankSimilarity sqrtFn queryNorm query x.vector⟩
      rw [hpush] at this
      simp at this
    | some h' => simpa using ih h'

theorem rankByCosine_isSome (sqrtFn : ℚ → ℚ) (query : List ℚ)
    (vectors : List VecItem) (topK : ℤ) (htop : 1 ≤ topK) :
    (rankByCosine sqrtFn query vectors topK).isSome = true := by
  rw [rankByCosine]
  split
  · rfl
  · dsimp only
    cases hloop : rankLoop sqrtFn (sqrtFn (sumSquares query)) query topK [] vectors with
    | none =>
      have := rankLoop_isSome sqrtFn (sqrtFn (sumSquares query)) query topK htop vectors []
      rw [hloop] at this
      simp at this
    | some hp => simp

/-- When `topK ≥ 1` and there is at least one candidate, the returned list
is non-empty. -/
theorem rankByCosine_result_ne_nil (sqrtFn : ℚ → ℚ) (query : List ℚ)
    (vectors : List VecItem) (topK : ℤ) (res : List RankedItem)
    (htop : 1 ≤ topK) (hv : vectors ≠ [])
    (h : rankByCosine sqrtFn query vectors topK = some res) : res ≠ [] := by
  rw [rankByCosine_eq_take_sort sqrtFn query vectors topK res h]
  intro e
  rcases List.take_eq_nil_iff.mp e with h0 | h0
  · omega
  · have : (sortBySimDesc (vectors.map (rankedOf sqrtFn query))).length = 0 := by
      rw [h0]
      rfl
    rw [(sortBySimDesc_perm _).length_eq, List.length_map] at this
    exact hv (List.length_eq_zero.mp this)

/-! ## Claims about the ranker (C2, C6, C7) -/

theorem natSqrtA_one : natSqrtA 1 = 1 := by decide

theorem ratSqrt_one : ratSqrt 1 = 1 := by
  have h1 : (1 : ℚ).num.toNat = 1 := rfl
  have h2 : (1 : ℚ).den = 1 := rfl
  simp only [ratSqrt, h1, h2, natSqrtA_one]
  norm_num

/-- C2 counterexample: `topK = 0 ≤ 0` together with a non-empty candidate
list does *not* yield an empty result: the heap is empty and below-capacity
push is disabled, so the source dereferences
`topKHeap[topKHeap.length - 1].similarity` on `undefined` and throws a
TypeError (modelled as `none`) instead of returning. -/
theorem rankByCosine_topK_zero_crashes :
    rankByCosine ratSqrt [1] [⟨7, [1], 0, 0, [], []⟩] 0 = none := by
  simp [rankByCosine, rankLoop, pushOrReplace]

/-- C2 (amended): with an *empty* candidate list `rankByCosine` returns the
empty result for every `topK` (in particular `topK ≤ 0`); but with a
non-empty candidate list and `topK ≤ 0` it does not return at all — it
throws a TypeError by reading `.similarity` of `undefined`. -/
theorem rankByCosine_nonpos_topK (sqrtFn : ℚ → ℚ) (query : List ℚ)
    (vectors : List VecItem) (topK : ℤ) (htop : topK ≤ 0) :
    rankByCosine sqrtFn query [] topK = some [] ∧
      (vectors ≠ [] → rankByCosine sqrtFn query vectors topK = none) := by
  refine ⟨by rw [rankByCosine, if_pos rfl], ?_⟩
  intro hv
  cases vectors with
  | nil => exact absurd rfl hv
  | cons x rest =>
    rw [rankByCosine, if_neg (by simp)]
    dsimp only
    rw [rankLoop, pushOrReplace,
      if_neg (by simpa using htop : ¬ ((([] : List RankedItem).length : ℤ) < topK))]
    rfl

/-- Witness for `rankByCosine_nonpos_topK` at `topK = -2` with one
candidate. -/
theorem rankByCosine_nonpos_topK_witness :
    rankByCosine ratSqrt [1] [] (-2) = some [] ∧
      rankByCosine ratSqrt [1] [⟨8, [1], 0, 0, [], []⟩] (-2) = none :=
  ⟨(rankByCosine_nonpos_topK ratSqrt [1] [⟨8, [1], 0, 0, [], []⟩] (-2) (by decide)).1,
   (rankByCosine_nonpos_topK ratSqrt [1] [⟨8, [1], 0, 0, [], []⟩] (-2) (by decide)).2
     (by decide)⟩

/-- C6 counterexample: a candidate whose vector is *longer* than the query
is neither skipped nor given similarity 0: with query `[1]` and candidate
vector `[1, 1]` only the first component enters the computation and the
candidate is returned with similarity 1 ≠ 0. -/
theorem rankByCosine_long_vector_not_skipped :
    rankByCosine ratSqrt [1] [⟨1, [1, 1], 2, 3, [], []⟩] 5 =
        some [⟨⟨1, [1, 1], 2, 3, [], []⟩, 1⟩] ∧
      ([1, 1] : List ℚ).length ≠ ([1] : List ℚ).length := by
  refine ⟨?_, by decide⟩
  have hq : sumSquares [1] = 1 := by norm_num [sumSquares]
  have hsim : rankSimilarity ratSqrt (ratSqrt (sumSquares [1])) [1] [1, 1] = 1 := by
    rw [hq, ratSqrt_one]
    norm_num [rankSimilarity, List.range_succ, ratSqrt_one]
  simp [rankByCosine, rankLoop, pushOrReplace, hsim, sortBySimDesc, insertBySim]

/-- C6 (amended): a candidate vector *shorter* than the query is treated as
similarity 0 (the NaN produced by the out-of-bounds read fails the
`itemNorm > 0` guard); a *longer* one is ranked by the cosine of its first
`query.length` components (and may well score non-zero, see the
counterexample); and no length mismatch ever crashes the ranker — for every
`topK ≥ 1` (and any square-root behaviour) `rankByCosine` returns
normally. -/
theorem rankByCosine_mismatch_behaviour (sqrtFn : ℚ → ℚ) (queryNorm : ℚ)
    (query vec : List ℚ) (vectors : List VecItem) (topK : ℤ)
    (hshort : vec.length < query.length) (htop : 1 ≤ topK) :
    rankSimilarity sqrtFn queryNorm query vec = 0 ∧
      (rankByCosine sqrtFn query vectors topK).isSome = true :=
  ⟨by rw [rankSimilarity, if_pos hshort],
   rankByCosine_isSome sqrtFn query vectors topK htop⟩

/-- Witness for `rankByCosine_mismatch_behaviour`: a one-component vector
against a two-component query scores 0, and ranking returns normally. -/
theorem rankByCosine_mismatch_behaviour_witness :
    rankSimilarity ratSqrt 1 [1, 1] [1] = 0 ∧
      (rankByCosine ratSqrt [1, 1] [⟨1, [1], 2, 3, [], []⟩] 5).isSome = true :=
  rankByCosine_mismatch_behaviour ratSqrt 1 [1, 1] [1] [⟨1, [1], 2, 3, [], []⟩] 5
    (by decide) (by decide)

/-- C7: for every query, candidate list, `topK` and square-root behaviour:
every list `rankByCosine` returns is sorted descending by similarity, and
its entries of any fixed similarity appear in the order the candidates were
supplied (a sublist of the supplied order — first-seen wins ties); and
whenever `topK` is at least the number of candidates the result is exactly
the stable descending sort of *all* candidates, i.e. every candidate
appears exactly once. -/
theorem rankByCosine_sorted_complete_stable (sqrtFn : ℚ → ℚ) (query : List ℚ)
    (vectors : List VecItem) (topK : ℤ) :
    (∀ res, rankByCosine sqrtFn query vectors topK = some res →
      SortedBySim res ∧
        ∀ s : ℚ, ((res.filter fun r => decide (r.similarity = s)).Sublist
          ((vectors.map (rankedOf sqrtFn query)).filter fun r =>
            decide (r.similarity = s)))) ∧
    ((vectors.length : ℤ) ≤ topK →
      rankByCosine sqrtFn query vectors topK =
        some (sortBySimDesc (vectors.map (rankedOf sqrtFn query)))) := by
  constructor
  · intro res hres
    have hspec := rankByCosine_eq_take_sort sqrtFn query vectors topK res hres
    constructor
    · rw [hspec]
      exact List.Pairwise.sublist (List.take_sublist _ _) (sortedBySim_sortBySimDesc _)
    · intro s
      rw [hspec]
      have h1 := (List.take_sublist topK.toNat
          (sortBySimDesc (vectors.map (rankedOf sqrtFn query)))).filter
        (fun r => decide (r.similarity = s))
      rwa [filter_sortBySimDesc] at h1
  · intro hlen
    by_cases hv : vectors = []
    · subst hv
      rw [rankByCosine, if_pos rfl]
      rfl
    · have htop : 1 ≤ topK := by
        have : 1 ≤ vectors.length := List.length_pos.mpr hv
        omega
      obtain ⟨res, hres⟩ := Option.isSome_iff_exists.mp
        (rankByCosine_isSome sqrtFn query vectors topK htop)
      rw [hres]
      have hspec := rankByCosine_eq_take_sort sqrtFn query vectors topK res hres
      rw [hspec, List.take_of_length_le]
      rw [(sortBySimDesc_perm _).length_eq, List.length_map]
      omega

/-- Witness for `rankByCosine_sorted_complete_stable`: one candidate with
`topK = 5` comes back as the full sorted list. -/
theorem rankByCosine_sorted_complete_stable_witness :
    rankByCosine ratSqrt [1] [⟨1, [1], 2, 3, [], []⟩] 5 =
      some (sortBySimDesc (([⟨1, [1], 2, 3, [], []⟩] : List VecItem).map
        (rankedOf ratSqrt [1]))) :=
  (rankByCosine_sorted_complete_stable ratSqrt [1] [⟨1, [1], 2, 3, [], []⟩] 5).2 (by decide)

/-! ## Sanity evaluations of the context assembler -/

example : natDigits 0 = "0".data := by decide

example : natDigits 125 = "125".data := by decide

example :
    buildContext [⟨"a.pdf".data, 0, "hi".data⟩] 3000 =
      ("Source: a.pdf#0\nhi\n---\n".data, [("a.pdf".data, 0)]) := by decide

example :
    buildContext [⟨"a.pdf".data, 0, "hi".data⟩, ⟨"a.pdf".data, 0, "hi".data⟩] 3000 =
      ("Source: a.pdf#0\nhi\n---\nSource: a.pdf#0\nhi\n---\n".data,
        [("a.pdf".data, 0)]) := by decide

/-! ## The dedup key is injective on (filename, index) pairs -/

theorem digitChar_ne_hash (k : ℕ) : Nat.digitChar k ≠ '#' := by
  by_cases h : k < 16
  · interval_cases k <;> decide
  · unfold Nat.digitChar
    repeat rw [if_neg (by omega)]
    decide

theorem digitChar_inj_lt : ∀ a < 10, ∀ b < 10, Nat.digitChar a = Nat.digitChar b → a = b := by
  decide

theorem natDigitsAux_ne_nil (fuel n : ℕ) : natDigitsAux fuel n ≠ [] := by
  cases fuel with
  | zero => simp [natDigitsAux]
  | succ f =>
    rw [natDigitsAux]
    split <;> simp

theorem natDigitsAux_no_hash : ∀ fuel n, ∀ c ∈ natDigitsAux fuel n, c ≠ '#' := by
  intro fuel
  induction fuel with
  | zero =>
    intro n c hc
    rw [natDigitsAux] at hc
    rcases List.mem_singleton.mp hc with rfl
    exact digitChar_ne_hash _
  | succ f ih =>
    intro n c hc
    rw [natDigitsAux] at hc
    split at hc
    · rcases List.mem_singleton.mp hc with rfl
      exact digitChar_ne_hash _
    · rcases List.mem_append.mp hc with hc | hc
      · exact ih _ c hc
      · rcases List.mem_singleton.mp hc with rfl
        exact digitChar_ne_hash _

theorem natDigits_no_hash (n : ℕ) : ∀ c ∈ natDigits n, c ≠ '#' :=
  natDigitsAux_no_hash n n

theorem natDigitsAux_inj :
    ∀ f1 n, n ≤ f1 → ∀ f2 m, m ≤ f2 →
      natDigitsAux f1 n = natDigitsAux f2 m → n = m := by
  intro f1
  induction f1 with
  | zero =>
    intro n hn f2 m hm he
    interval_cases n
    cases f2 with
    | zero =>
      interval_cases m
      rfl
    | succ g =>
      rw [natDigitsAux, natDigitsAux] at he
      split at he
      · rename_i hm10
        injection he with h1 _
        exact digitChar_inj_lt 0 (by omega) m hm10 (by simpa using h1)
      · have hlen := congrArg List.length he
        rw [List.length_append] at hlen
        simp at hlen
        exact absurd hlen (natDigitsAux_ne_nil g (m / 10))
  | succ f ih =>
    intro n hn f2 m hm he
    rw [natDigitsAux] at he
    split at he
    · rename_i hn10
      cases f2 with
      | zero =>
        interval_cases m
        rw [natDigitsAux] at he
        injection he with h1 _
        exact digitChar_inj_lt n hn10 0 (by omega) h1
      | succ g =>
        rw [natDigitsAux] at he
        split at he
        · rename_i hm10
          injection he with h1 _
          exact digitChar_inj_lt n hn10 m hm10 h1
        · have hlen := congrArg List.length he
          rw [List.length_append] at hlen
          simp at hlen
          exact absurd hlen (natDigitsAux_ne_nil g (m / 10))
    · rename_i hn10
      push_neg at hn10
      cases f2 with
      | zero =>
        interval_cases m
        rw [natDigitsAux] at he
        have hlen := congrArg List.length he
        rw [List.length_append] at hlen
        simp at hlen
        exact absurd hlen (natDigitsAux_ne_nil f (n / 10))
      | succ g =>
        rw [natDigitsAux] at he
        split at he
        · have hlen := congrArg List.length he
          rw [List.length_append] at hlen
          simp at hlen
          exact absurd hlen (natDigitsAux_ne_nil f (n / 10))
        · rename_i hm10
          push_neg at hm10
          obtain ⟨hpre, hsuf⟩ := List.append_inj' he (by simp)
          injection hsuf with hdig _
          have hdiv : n / 10 = m / 10 :=
            ih (n / 10) (by omega) g (m / 10) (by omega) hpre
          have hmod : n % 10 = m % 10 :=
            digitChar_inj_lt (n % 10) (by omega) (m % 10) (by omega) hdig
          omega

theorem natDigits_inj (n m : ℕ) (h : natDigits n = natDigits m) : n = m :=
  natDigitsAux_inj n n (le_refl n) m m (le_refl m) h

/-- Splitting a string at a `'#'` that is known not to occur in the part
after it is unambiguous (from the front, with the hash-free parts leading). -/
theorem append_hash_split :
    ∀ (a1 : List Char) (b1 : List Char) (a2 b2 : List Char),
      '#' ∉ a1 → '#' ∉ a2 → a1 ++ '#' :: b1 = a2 ++ '#' :: b2 →
      a1 = a2 ∧ b1 = b2 := by
  intro a1
  induction a1 with
  | nil =>
    intro b1 a2 b2 _ h2 he
    cases a2 with
    | nil =>
      injection he with _ h
      exact ⟨rfl, h⟩
    | cons d a2' =>
      injection he with h1 _
      exact absurd (h1 ▸ List.mem_cons_self d a2') h2
  | cons c a1' ih =>
    intro b1 a2 b2 h1 h2 he
    cases a2 with
    | nil =>
      injection he with hc _
      exact absurd (hc ▸ List.mem_cons_self c a1') h1
    | cons d a2' =>
      injection he with hc he'
      obtain ⟨hA, hB⟩ := ih b1 a2' b2 (fun hm => h1 (List.mem_cons_of_mem c hm))
        (fun hm => h2 (List.mem_cons_of_mem d hm)) he'
      exact ⟨by rw [hc, hA], hB⟩

theorem sourceKey_inj (f1 : List Char) (i1 : ℕ) (f2 : List Char) (i2 : ℕ)
    (h : sourceKey f1 i1 = sourceKey f2 i2) : f1 = f2 ∧ i1 = i2 := by
  have hrev := congrArg List.reverse h
  rw [sourceKey, sourceKey] at hrev
  simp only [List.reverse_append, List.reverse_cons, List.append_assoc,
    List.singleton_append] at hrev
  obtain ⟨hd, hf⟩ := append_hash_split (natDigits i1).reverse f1.reverse
    (natDigits i2).reverse f2.reverse
    (fun hm => natDigits_no_hash i1 '#' (List.mem_reverse.mp hm) rfl)
    (fun hm => natDigits_no_hash i2 '#' (List.mem_reverse.mp hm) rfl) hrev
  refine ⟨List.reverse_injective hf, natDigits_inj i1 i2 (List.reverse_injective hd)⟩

/-- The key comparison in `buildContext` coincides with equality of the
`(filename, chunkIndex)` pairs themselves. -/
theorem dedupInsert_eq (sources : List (List Char × ℕ)) (c : ChunkSource) :
    dedupInsert sources c =
      if (c.filename, c.chunkIndex) ∈ sources then sources
      else sources ++ [(c.filename, c.chunkIndex)] := by
  rw [dedupInsert]
  by_cases hmem : (c.filename, c.chunkIndex) ∈ sources
  · rw [if_pos, if_pos hmem]
    rw [List.any_eq_true]
    exact ⟨(c.filename, c.chunkIndex), hmem, by simp⟩
  · rw [if_neg, if_neg hmem]
    intro hany
    rw [List.any_eq_true] at hany
    obtain ⟨s, hs, hkey⟩ := hany
    rw [decide_eq_true_eq] at hkey
    obtain ⟨hf, hi⟩ := sourceKey_inj s.1 s.2 c.filename c.chunkIndex hkey
    apply hmem
    have : s = (c.filename, c.chunkIndex) := Prod.ext hf hi
    exact this ▸ hs

/-! ## Claims about the context assembler (C5, C10) -/

theorem sumRenderLen_cons (c : ChunkSource) (l : List ChunkSource) :
    sumRenderLen (c :: l) = (renderChunk c).length + sumRenderLen l := by
  simp [sumRenderLen]

theorem renderChunk_length_pos (c : ChunkSource) : 0 < (renderChunk c).length := by
  rw [renderChunk]
  simp

/-- What the greedy loop of `buildContext` computes, for a strictly positive
running length (i.e. once the first fragment is in): there is a prefix
length `n` such that the parts are exactly the rendered first `n`
fragments and the sources the key-deduplicated first `n` pairs; everything
accumulated stays within budget (unless nothing was accumulated), and if
the loop stopped early the very next fragment would overflow. -/
theorem buildLoop_spec (maxChars : ℤ) :
    ∀ (rest : List ChunkSource) (parts : List (List Char))
      (sources : List (List Char × ℕ)) (cur : ℕ), 0 < cur →
      ∃ n, n ≤ rest.length ∧
        buildLoop maxChars rest parts sources cur =
          (parts ++ (rest.take n).map renderChunk,
            (rest.take n).foldl dedupInsert sources) ∧
        (n = 0 ∨ (cur : ℤ) + sumRenderLen (rest.take n) ≤ maxChars) ∧
        (∀ h : n < rest.length,
          (cur : ℤ) + sumRenderLen (rest.take n) +
            ((renderChunk (rest.get ⟨n, h⟩)).length : ℤ) > maxChars) := by
  intro rest
  induction rest with
  | nil =>
    intro parts sources cur _
    refine ⟨0, le_refl _, by simp [buildLoop], Or.inl rfl, ?_⟩
    intro h
    simp at h
  | cons c rest' ih =>
    intro parts sources cur hcur
    rw [buildLoop]
    by_cases hover : (cur : ℤ) + (renderChunk c).length > maxChars
    · rw [if_pos ⟨hover, hcur⟩]
      refine ⟨0, Nat.zero_le _, by simp, Or.inl rfl, ?_⟩
      intro h
      simpa [sumRenderLen] using hover
    · rw [if_neg (by tauto)]
      obtain ⟨n', hn'le, heq, hbud, hstop⟩ :=
        ih (parts ++ [renderChunk c]) (dedupInsert sources c)
          (cur + (renderChunk c).length)
          (by omega)
      refine ⟨n' + 1, by simpa using hn'le, ?_, ?_, ?_⟩
      · rw [heq]
        simp [List.take_succ_cons, List.append_assoc]
      · right
        rw [List.take_succ_cons, sumRenderLen_cons]
        rcases hbud with h0 | hb
        · rw [h0]
          simp only [List.take_zero, sumRenderLen, List.map_nil, List.sum_nil]
          push_cast
          omega
        · push_cast at hb ⊢
          omega
      · intro h
        have h' : n' < rest'.length := by simpa using h
        have := hstop h'
        rw [List.take_succ_cons, sumRenderLen_cons, List.get_cons_succ]
        push_cast at this ⊢
        omega

/-- The whole of `buildContext` on a non-empty input: the first fragment is
always taken (the budget test is skipped while `currentLength = 0`), and
from then on the loop behaves as `buildLoop_spec` describes. -/
theorem buildContext_spec (chosen : List ChunkSource) (maxChars : ℤ) (hne : chosen ≠ []) :
    ∃ n, 1 ≤ n ∧ n ≤ chosen.length ∧
      buildContext chosen maxChars =
        (((chosen.take n).map renderChunk).flatten,
          (chosen.take n).foldl dedupInsert []) ∧
      ((sumRenderLen (chosen.take n) : ℤ) ≤ maxChars ∨ n = 1) ∧
      (∀ h : n < chosen.length,
        (sumRenderLen (chosen.take n) : ℤ) +
          ((renderChunk (chosen.get ⟨n, h⟩)).length : ℤ) > maxChars) := by
  cases chosen with
  | nil => exact absurd rfl hne
  | cons c rest =>
    obtain ⟨n', hle, heq, hbud, hstop⟩ := buildLoop_spec maxChars rest [renderChunk c]
      (dedupInsert [] c) (0 + (renderChunk c).length)
      (by have := renderChunk_length_pos c; omega)
    refine ⟨n' + 1, by omega, by simpa using hle, ?_, ?_, ?_⟩
    · rw [buildContext, if_neg hne]
      dsimp only
      rw [buildLoop, if_neg (by simp)]
      simp only [List.nil_append]
      rw [heq]
      simp [List.take_succ_cons, List.foldl_cons]
    · rw [List.take_succ_cons, sumRenderLen_cons]
      rcases hbud with h0 | hb
      · right
        omega
      · left
        push_cast at hb ⊢
        omega
    · intro h
      have h' : n' < rest.length := by simpa using h
      have := hstop h'
      rw [List.take_succ_cons, sumRenderLen_cons, List.get_cons_succ]
      push_cast at this ⊢
      omega

/-- C5: `buildContext` accumulates fragments greedily in the given order:
some prefix of length `n ≥ 1` is rendered and concatenated (so the first
fragment is always included, and nothing is skipped — the loop stops at the
first overflowing fragment, witnessed by the last conjunct-but-one); every
accumulated total beyond the first fragment stays within `maxChars`, so the
returned context exceeds `maxChars` only when the first fragment's rendered
text alone does. -/
theorem buildContext_greedy_bounded (chosen : List ChunkSource) (maxChars : ℤ)
    (hne : chosen ≠ []) :
    ∃ n, 1 ≤ n ∧ n ≤ chosen.length ∧
      (buildContext chosen maxChars).1 = ((chosen.take n).map renderChunk).flatten ∧
      ((sumRenderLen (chosen.take n) : ℤ) ≤ maxChars ∨ n = 1) ∧
      (∀ h : n < chosen.length,
        (sumRenderLen (chosen.take n) : ℤ) +
          ((renderChunk (chosen.get ⟨n, h⟩)).length : ℤ) > maxChars) ∧
      (((renderChunk (chosen.head hne)).length : ℤ) ≤ maxChars →
        (((buildContext chosen maxChars).1.length : ℤ) ≤ maxChars)) := by
  obtain ⟨n, h1, h2, heq, hbud, hstop⟩ := buildContext_spec chosen maxChars hne
  have hctx : (buildContext chosen maxChars).1 = ((chosen.take n).map renderChunk).flatten := by
    rw [heq]
  have hlen : (buildContext chosen maxChars).1.length = sumRenderLen (chosen.take n) := by
    rw [hctx, List.length_flatten, List.map_map, sumRenderLen]
    rfl
  refine ⟨n, h1, h2, hctx, hbud, hstop, ?_⟩
  intro hhead
  rw [hlen]
  rcases hbud with hb | hb
  · exact hb
  · subst hb
    cases chosen with
    | nil => exact absurd rfl hne
    | cons c rest =>
      rw [List.take_succ_cons, List.take_zero, sumRenderLen_cons]
      simpa [sumRenderLen] using hhead

/-- Witness for `buildContext_greedy_bounded`: one small fragment against
the default budget of 3000 characters stays within the budget. -/
theorem buildContext_greedy_bounded_witness :
    (((buildContext [⟨"a.pdf".data, 0, "hi".data⟩] 3000).1.length : ℤ) ≤ 3000) := by
  obtain ⟨n, _, _, _, _, _, hfit⟩ :=
    buildContext_greedy_bounded [⟨"a.pdf".data, 0, "hi".data⟩] 3000 (by decide)
  exact hfit (by decide)

theorem foldl_dedupInsert_eq :
    ∀ (l : List ChunkSource) (acc : List (List Char × ℕ)),
      l.foldl dedupInsert acc =
        l.foldl (fun a c => if (c.filename, c.chunkIndex) ∈ a then a
          else a ++ [(c.filename, c.chunkIndex)]) acc := by
  intro l
  induction l with
  | nil => intro acc; rfl
  | cons c rest ih =>
    intro acc
    rw [List.foldl_cons, List.foldl_cons, dedupInsert_eq, ih]

theorem foldl_firstSeen_nodup :
    ∀ (l : List ChunkSource) (acc : List (List Char × ℕ)), acc.Nodup →
      (l.foldl (fun a c => if (c.filename, c.chunkIndex) ∈ a then a
        else a ++ [(c.filename, c.chunkIndex)]) acc).Nodup := by
  intro l
  induction l with
  | nil => intro acc h; exact h
  | cons c rest ih =>
    intro acc hacc
    rw [List.foldl_cons]
    by_cases hm : (c.filename, c.chunkIndex) ∈ acc
    · rw [if_pos hm]
      exact ih acc hacc
    · rw [if_neg hm]
      refine ih _ ?_
      rw [List.nodup_append]
      exact ⟨hacc, List.nodup_singleton _, by simpa using hm⟩

theorem foldl_firstSeen_mem :
    ∀ (l : List ChunkSource) (acc : List (List Char × ℕ)) (p : List Char × ℕ),
      (p ∈ l.foldl (fun a c => if (c.filename, c.chunkIndex) ∈ a then a
          else a ++ [(c.filename, c.chunkIndex)]) acc ↔
        p ∈ acc ∨ p ∈ l.map fun c => (c.filename, c.chunkIndex)) := by
  intro l
  induction l with
  | nil => intro acc p; simp
  | cons c rest ih =>
    intro acc p
    rw [List.foldl_cons]
    by_cases hm : (c.filename, c.chunkIndex) ∈ acc
    · rw [if_pos hm, ih]
      simp only [List.map_cons, List.mem_cons]
      constructor
      · rintro (h | h)
        · exact Or.inl h
        · exact Or.inr (Or.inr h)
      · rintro (h | h | h)
        · exact Or.inl h
        · exact Or.inl (h ▸ hm)
        · exact Or.inr h
    · rw [if_neg hm, ih]
      simp only [List.mem_append, List.mem_singleton, List.map_cons, List.mem_cons]
      tauto

/-- C10: the source list of `buildContext` is exactly the first-seen
deduplication of the `(filename, chunkIndex)` pairs of the fragments that
made it into the context (the same prefix `n` that forms the context text):
it has no duplicate pair, and a pair is cited iff its fragment was
included. -/
theorem buildContext_sources_exact (chosen : List ChunkSource) (maxChars : ℤ) :
    ∃ n, n ≤ chosen.length ∧
      (buildContext chosen maxChars).1 = ((chosen.take n).map renderChunk).flatten ∧
      (buildContext chosen maxChars).2 =
        (chosen.take n).foldl (fun acc c =>
          if (c.filename, c.chunkIndex) ∈ acc then acc
          else acc ++ [(c.filename, c.chunkIndex)]) [] ∧
      (buildContext chosen maxChars).2.Nodup ∧
      ∀ p, (p ∈ (buildContext chosen maxChars).2 ↔
        p ∈ (chosen.take n).map fun c => (c.filename, c.chunkIndex)) := by
  by_cases hne : chosen = []
  · subst hne
    exact ⟨0, le_refl _, by simp [buildContext], by simp [buildContext], by
      simp [buildContext], by simp [buildContext]⟩
  · obtain ⟨n, _, hle, heq, _, _⟩ := buildContext_spec chosen maxChars hne
    have h1 : (buildContext chosen maxChars).1 =
        ((chosen.take n).map renderChunk).flatten := by rw [heq]
    have h2 : (buildContext chosen maxChars).2 =
        (chosen.take n).foldl (fun acc c =>
          if (c.filename, c.chunkIndex) ∈ acc then acc
          else acc ++ [(c.filename, c.chunkIndex)]) [] := by
      rw [heq, ← foldl_dedupInsert_eq]
    refine ⟨n, hle, h1, h2, ?_, ?_⟩
    · rw [h2]
      exact foldl_firstSeen_nodup _ [] List.nodup_nil
    · intro p
      rw [h2, foldl_firstSeen_mem]
      simp

/-! ## Claims about the orchestrator (C3, C4, C8) -/

theorem buildContext_length_pos (chosen : List ChunkSource) (maxChars : ℤ)
    (hne : chosen ≠ []) : 0 < (buildContext chosen maxChars).1.length := by
  obtain ⟨n, hn1, _, heq, _, _⟩ := buildContext_spec chosen maxChars hne
  have h1 : (buildContext chosen maxChars).1 =
      ((chosen.take n).map renderChunk).flatten := by rw [heq]
  rw [h1, List.length_flatten, List.map_map]
  cases chosen with
  | nil => exact absurd rfl hne
  | cons c rest =>
    obtain ⟨m, rfl⟩ : ∃ m, n = m + 1 := ⟨n - 1, by omega⟩
    rw [List.take_succ_cons, List.map_cons, List.sum_cons]
    have := renderChunk_length_pos c
    simp only [Function.comp]
    omega

/-- C3 (amended): when the lexical prefilter errors or returns zero
candidate ids (`ftsIds fts = []` covers exactly these two cases), the
query does not fail at that stage: the FetchVectors stage loads the full
scope (capped at `MAX_EMBEDDINGS_SEARCH` rows), and the query reaches the
Generate stage successfully whenever at least one valid embedding exists
among those first `MAX_EMBEDDINGS_SEARCH` in-scope rows (for any
`topK ≥ 1`, budget, query vector and square-root behaviour). -/
theorem queryPOSTCore_fullscope_fallback (sqrtFn : ℚ → ℚ)
    (topK maxContextChars : ℤ) (maxEmbeddingsSearch : ℕ) (queryVector : List ℚ)
    (scope : List EmbRow) (fts : Except Unit (List ℕ)) (question : List Char)
    (hfts : ftsIds fts = []) (htop : 1 ≤ topK)
    (hvalid : ∃ r ∈ scope.take maxEmbeddingsSearch, ∃ v, r.vector = some v ∧ v ≠ []) :
    fetchEmbeddings scope (ftsIds fts) maxEmbeddingsSearch =
        scope.take maxEmbeddingsSearch ∧
      ∃ p s, queryPOSTCore sqrtFn topK maxContextChars maxEmbeddingsSearch
        queryVector scope fts question = Except.ok (p, s) := by
  have hfetch : fetchEmbeddings scope (ftsIds fts) maxEmbeddingsSearch =
      scope.take maxEmbeddingsSearch := by
    rw [hfts, fetchEmbeddings, if_neg (by simp)]
  refine ⟨hfetch, ?_⟩
  obtain ⟨r, hrmem, v, hv, hvne⟩ := hvalid
  have hne : fetchEmbeddings scope (ftsIds fts) maxEmbeddingsSearch ≠ [] := by
    rw [hfetch]
    exact List.ne_nil_of_mem hrmem
  have hpred : (match r.vector with
      | some v => !v.isEmpty
      | none => false) = true := by
    rw [hv]
    simpa using hvne
  have hvrne : vectorRows (fetchEmbeddings scope (ftsIds fts) maxEmbeddingsSearch) ≠ [] := by
    rw [hfetch, vectorRows]
    have hmemf : r ∈ (scope.take maxEmbeddingsSearch).filter fun r =>
        (match r.vector with
          | some v => !v.isEmpty
          | none => false) := List.mem_filter.mpr ⟨hrmem, hpred⟩
    exact List.ne_nil_of_mem (List.mem_map_of_mem _ hmemf)
  obtain ⟨chosen, hchosen⟩ := Option.isSome_iff_exists.mp
    (rankByCosine_isSome sqrtFn queryVector
      (vectorRows (fetchEmbeddings scope (ftsIds fts) maxEmbeddingsSearch)) topK htop)
  have hchne : chosen ≠ [] := rankByCosine_result_ne_nil sqrtFn queryVector _ topK
    chosen htop hvrne hchosen
  have hcsne : (chosen.map fun c =>
      (⟨c.filename, c.chunkIndex, c.text⟩ : ChunkSource)) ≠ [] := by
    intro e
    exact hchne (List.map_eq_nil_iff.mp e)
  have hctx := buildContext_length_pos _ maxContextChars hcsne
  simp only [queryPOSTCore]
  rw [if_neg hne, hchosen]
  dsimp only
  rw [if_neg (by omega)]
  exact ⟨_, _, rfl⟩

/-- Witness for `queryPOSTCore_fullscope_fallback`: a one-row scope with a
valid embedding and an erroring prefilter still reaches generation. -/
theorem queryPOSTCore_fullscope_fallback_witness :
    fetchEmbeddings [⟨1, some [1], 0, 0, "f".data, "t".data⟩]
        (ftsIds (Except.error ())) 1000 =
          ([⟨1, some [1], 0, 0, "f".data, "t".data⟩] : List EmbRow).take 1000 ∧
      ∃ p s, queryPOSTCore ratSqrt 5 3000 1000 [1]
        [⟨1, some [1], 0, 0, "f".data, "t".data⟩] (Except.error ()) ("Q".data) =
        Except.ok (p, s) :=
  queryPOSTCore_fullscope_fallback ratSqrt 5 3000 1000 [1]
    [⟨1, some [1], 0, 0, "f".data, "t".data⟩] (Except.error ()) ("Q".data)
    rfl (by decide) ⟨⟨1, some [1], 0, 0, "f".data, "t".data⟩, by decide, [1], rfl, by decide⟩

set_option maxRecDepth 100000 in
/-- C3 counterexample: the claim "the query completes successfully
whenever at least one valid embedding exists in scope" fails.  With the
default `MAX_EMBEDDINGS_SEARCH = 1000`, a scope of 1000 malformed rows
followed by one valid embedding, and an erroring prefilter, the fetch cap
drops the only valid row: all fetched vectors are filtered out, ranking
returns nothing, and the query ends in the "No context could be built"
error even though a valid embedding exists in scope. -/
theorem queryPOSTCore_fallback_drops_valid_row :
    queryPOSTCore ratSqrt 5 3000 1000 [1]
        (List.replicate 1000 (⟨0, none, 0, 0, [], []⟩ : EmbRow) ++
          [⟨1, some [1], 0, 0, "f".data, "t".data⟩])
        (Except.error ()) ("Q".data) =
      Except.error QueryError.noContext := by decide

/-- C4 (amended): malformed or empty vectors are indeed filtered out
before ranking (every row handed to the ranker has a non-empty vector),
and the "no embedded content" terminal error is raised — by both route
variants — exactly when *zero embeddings were fetched*.  But when
embeddings were fetched and zero usable ones remain after filtering, the
pipeline does not raise that error: the single-completion route ends in
the distinct "No context could be built" error, and the streaming route
proceeds to generation with an empty context. -/
theorem query_zero_usable_embeddings (sqrtFn : ℚ → ℚ)
    (topK maxContextChars : ℤ) (maxEmbeddingsSearch : ℕ) (queryVector : List ℚ)
    (scope : List EmbRow) (fts : Except Unit (List ℕ)) (question : List Char) :
    (∀ it ∈ vectorRows (fetchEmbeddings scope (ftsIds fts) maxEmbeddingsSearch),
        it.vector ≠ []) ∧
    (fetchEmbeddings scope (ftsIds fts) maxEmbeddingsSearch = [] →
      queryPOSTCore sqrtFn topK maxContextChars maxEmbeddingsSearch queryVector
          scope fts question = Except.error QueryError.noEmbeddedContent ∧
        queryStreamPOSTCore sqrtFn topK maxContextChars maxEmbeddingsSearch queryVector
          scope fts question = Except.error QueryError.noEmbeddedContent) ∧
    (fetchEmbeddings scope (ftsIds fts) maxEmbeddingsSearch ≠ [] →
      vectorRows (fetchEmbeddings scope (ftsIds fts) maxEmbeddingsSearch) = [] →
      queryPOSTCore sqrtFn topK maxContextChars maxEmbeddingsSearch queryVector
          scope fts question = Except.error QueryError.noContext ∧
        queryStreamPOSTCore sqrtFn topK maxContextChars maxEmbeddingsSearch queryVector
          scope fts question = Except.ok (buildPrompt [] question, [])) := by
  refine ⟨?_, ?_, ?_⟩
  · intro it hit
    rw [vectorRows] at hit
    obtain ⟨r, hrf, hrit⟩ := List.mem_map.mp hit
    obtain ⟨_, hpred⟩ := List.mem_filter.mp hrf
    cases hv : r.vector with
    | none => rw [hv] at hpred; simp at hpred
    | some v =>
      rw [hv] at hpred
      rw [← hrit, hv]
      simpa using hpred
  · intro hempty
    constructor
    · simp only [queryPOSTCore]
      rw [if_pos hempty]
    · simp only [queryStreamPOSTCore]
      rw [if_pos hempty]
  · intro hne hzero
    have hrank : rankByCosine sqrtFn queryVector
        (vectorRows (fetchEmbeddings scope (ftsIds fts) maxEmbeddingsSearch)) topK =
        some [] := by
      rw [hzero, rankByCosine, if_pos rfl]
    constructor
    · simp only [queryPOSTCore]
      rw [if_neg hne, hrank]
      dsimp only
      rw [if_pos (by simp [buildContext])]
    · simp only [queryStreamPOSTCore]
      rw [if_neg hne, hrank]
      dsimp only
      rw [show buildContext (([] : List RankedItem).map fun c =>
          (⟨c.filename, c.chunkIndex, c.text⟩ : ChunkSource)) maxContextChars =
          ([], []) from rfl]

/-- Witness for `query_zero_usable_embeddings`: one fetched row whose
stored vector is not an array. -/
theorem query_zero_usable_embeddings_witness :
    queryPOSTCore ratSqrt 5 3000 1000 [1] [⟨0, none, 0, 0, [], []⟩] (Except.ok [])
        ("Q".data) = Except.error QueryError.noContext ∧
      queryStreamPOSTCore ratSqrt 5 3000 1000 [1] [⟨0, none, 0, 0, [], []⟩]
        (Except.ok []) ("Q".data) = Except.ok (buildPrompt [] ("Q".data), []) :=
  (query_zero_usable_embeddings ratSqrt 5 3000 1000 [1] [⟨0, none, 0, 0, [], []⟩]
    (Except.ok []) ("Q".data)).2.2 (by decide) (by decide)

set_option maxRecDepth 10000 in
/-- C4 counterexample: a fetched-but-unusable scope (one row whose stored
vector is not an array) does *not* end in the "no embedded content in
scope" error: the single-completion route fails with the distinct
"No context could be built" error and the streaming route proceeds
(returns a prompt built from an empty context). -/
theorem query_zero_usable_embeddings_not_terminal :
    queryPOSTCore ratSqrt 5 3000 1000 [1] [⟨0, none, 0, 0, [], []⟩] (Except.ok [])
          ("Q".data) ≠ Except.error QueryError.noEmbeddedContent ∧
      queryStreamPOSTCore ratSqrt 5 3000 1000 [1] [⟨0, none, 0, 0, [], []⟩]
        (Except.ok []) ("Q".data) ≠ Except.error QueryError.noEmbeddedContent := by
  decide

set_option maxRecDepth 10000 in
/-- C8: the two Generate-stage prompts are *not* the same function of
(question, context).  `buildPrompt`'s signature is
`buildPrompt(question, context)` and the single-completion route calls it
that way, but the streaming route calls `buildPrompt(context, question)`:
on the same scope and question the streaming path places the assembled
context in the QUESTION slot and the question in the CONTEXT slot, and
the two prompts differ. -/
theorem query_stream_prompt_swapped :
    queryPOSTCore ratSqrt 5 3000 1000 [1]
        [⟨1, some [1], 0, 0, "f.pdf".data, "hello".data⟩] (Except.ok []) ("Q".data) =
      Except.ok (buildPrompt ("Q".data) (renderChunk ⟨"f.pdf".data, 0, "hello".data⟩),
        [("f.pdf".data, 0)]) ∧
    queryStreamPOSTCore ratSqrt 5 3000 1000 [1]
        [⟨1, some [1], 0, 0, "f.pdf".data, "hello".data⟩] (Except.ok []) ("Q".data) =
      Except.ok (buildPrompt (renderChunk ⟨"f.pdf".data, 0, "hello".data⟩) ("Q".data),
        [("f.pdf".data, 0)]) ∧
    buildPrompt ("Q".data) (renderChunk ⟨"f.pdf".data, 0, "hello".data⟩) ≠
      buildPrompt (renderChunk ⟨"f.pdf".data, 0, "hello".data⟩) ("Q".data) := by
  decide
